import Mathlib

/-!
Verification of the outline tree editor (`OutlineEditor` component and its
`OutlineNode` data model).  The editor holds an ordered forest of outline
nodes and exposes id-addressed structural mutations: rename
(`handleUpdateNode` called with a `{title}` update), insert child
(`handleAddChild`), insert sibling (`handleAddSibling`), delete subtree
(`handleDeleteNode`) and append top-level (the add-top-level button
handler).  Each operation is embedded below as a pure function on
`List OutlineNode`.  The source mints ids with
`Math.random().toString(36).substr(2, 9)`; that random draw is modelled as
an explicit `newId : String` argument of the inserting operations.

The recursive source functions map over a sibling list and recurse into
`children`; each is embedded as a mutually recursive pair (a node-level
function for the `map` body, a list-level function for the `map` itself)
so that the recursion is structural.
-/

/-- The `OutlineNode` type of the source: an id, a title, a positive level
and an ordered list of children.  `level` is modelled as `Nat`. -/
structure OutlineNode where
  id : String
  title : String
  level : Nat
  children : List OutlineNode
  deriving Repr

/-- Title given to a freshly inserted child or sibling node (source
constant `'新标题'`). -/
def defaultTitle : String := "新标题"

/-- Title given to a freshly appended top-level node (source constant
`'新顶级标题'`). -/
def topLevelTitle : String := "新顶级标题"

mutual

/-- Body of the `map` in `updateRecursive` (from `handleUpdateNode`), with
the update fixed to `{ title: newTitle }` as at the call site: if the id
matches, replace the title; otherwise, if there are children, rebuild with
recursively processed children; otherwise return the node unchanged. -/
def updateRecursiveNode (tid newTitle : String) : OutlineNode → OutlineNode
  | ⟨i, t, l, c⟩ =>
      if i = tid then ⟨i, newTitle, l, c⟩
      else if c.length > 0 then ⟨i, t, l, updateRecursive tid newTitle c⟩
      else ⟨i, t, l, c⟩

/-- `updateRecursive` of `handleUpdateNode`: map `updateRecursiveNode`
over the sibling list.  This is the rename operation. -/
def updateRecursive (tid newTitle : String) : List OutlineNode → List OutlineNode
  | [] => []
  | n :: ns => updateRecursiveNode tid newTitle n :: updateRecursive tid newTitle ns

end

mutual

/-- Body of the `map` in `addRecursive` (from `handleAddChild`): if the id
matches `parentId`, append the new child `{id: newId, title: '新标题',
level: node.level + 1, children: []}` to the node's children; otherwise,
if there are children, recurse into them; otherwise return the node. -/
def addRecursiveNode (pid nid : String) : OutlineNode → OutlineNode
  | ⟨i, t, l, c⟩ =>
      if i = pid then ⟨i, t, l, c ++ [⟨nid, defaultTitle, l + 1, []⟩]⟩
      else if c.length > 0 then ⟨i, t, l, addRecursive pid nid c⟩
      else ⟨i, t, l, c⟩

/-- `addRecursive` of `handleAddChild`: map `addRecursiveNode` over the
sibling list.  This is the insertChild operation; `nid` is the id drawn
from `Math.random` in the source. -/
def addRecursive (pid nid : String) : List OutlineNode → List OutlineNode
  | [] => []
  | n :: ns => addRecursiveNode pid nid n :: addRecursive pid nid ns

end

mutual

/-- The `map` body of `deleteRecursive`: rebuild a surviving node with
recursively filtered children. -/
def deleteRecursiveNode (tid : String) : OutlineNode → OutlineNode
  | ⟨i, t, l, c⟩ => ⟨i, t, l, deleteRecursive tid c⟩

/-- `deleteRecursive` of `handleDeleteNode`:
`currentNodes.filter(node => node.id !== id).map(node => ({...node,
children: deleteRecursive(node.children)}))`, with the filter and the map
fused into one pass (dropped elements are simply skipped).  This is the
deleteSubtree operation. -/
def deleteRecursive (tid : String) : List OutlineNode → List OutlineNode
  | [] => []
  | n :: ns =>
      if n.id = tid then deleteRecursive tid ns
      else deleteRecursiveNode tid n :: deleteRecursive tid ns

end

/-- The `splice(index + 1, 0, sibling)` step of `addSiblingRecursive`:
insert the new sibling `{id: nid, title: '新标题', level:
currentNodes[index].level, children: []}` immediately after the first
node whose id is `aid`. -/
def spliceAfter (aid nid : String) : List OutlineNode → List OutlineNode
  | [] => []
  | n :: ns =>
      if n.id = aid then n :: ⟨nid, defaultTitle, n.level, []⟩ :: ns
      else n :: spliceAfter aid nid ns

mutual

/-- The `map` body of the not-found branch of `addSiblingRecursive`:
rebuild the node with recursively processed children. -/
def addSiblingRecursiveNode (aid nid : String) : OutlineNode → OutlineNode
  | ⟨i, t, l, c⟩ => ⟨i, t, l, addSiblingRecursive aid nid c⟩

/-- `addSiblingRecursive` of `handleAddSibling`: if
`currentNodes.findIndex(n => n.id === id)` succeeds, splice the new
sibling in after the match (`spliceAfter`); otherwise map over the list
recursing into every node's children.  (The source tests `findIndex` once
per list; re-testing it on the tail when the whole list had no match is
equivalent, since `any` is monotone under taking sublists.)  This is the
insertSibling operation. -/
def addSiblingRecursive (aid nid : String) : List OutlineNode → List OutlineNode
  | [] => []
  | n :: ns =>
      if (n :: ns).any (fun m => m.id == aid) then spliceAfter aid nid (n :: ns)
      else addSiblingRecursiveNode aid nid n :: addSiblingRecursive aid nid ns

end

/-- The add-top-level button handler: `onChange([...nodes, {id: newId,
title: '新顶级标题', level: 1, children: []}])`.  This is the
appendTopLevel operation. -/
def appendTopLevel (nid : String) (ns : List OutlineNode) : List OutlineNode :=
  ns ++ [⟨nid, topLevelTitle, 1, []⟩]

mutual

/-- All ids of a node's subtree, in depth-first preorder. -/
def idsN : OutlineNode → List String
  | ⟨i, _, _, c⟩ => i :: idsF c

/-- All ids of a forest, in depth-first preorder. -/
def idsF : List OutlineNode → List String
  | [] => []
  | n :: ns => idsN n ++ idsF ns

end

mutual

/-- The level invariant I2 at a node, relative to the depth `k` the node
sits at: the node's level is `k` and its children satisfy the invariant at
`k + 1`. -/
def levelsOkN (k : Nat) : OutlineNode → Bool
  | ⟨_, _, l, c⟩ => (l == k) && levelsOkF (k + 1) c

/-- The level invariant I2 for a whole sibling list at depth `k`.  A
forest is level-consistent when `levelsOkF 1` holds of it. -/
def levelsOkF (k : Nat) : List OutlineNode → Bool
  | [] => true
  | n :: ns => levelsOkN k n && levelsOkF k ns

end

mutual

/-- Search a node's children for the node with the given id (part of the
Node Address Resolver of spec §4.1: depth-first, first match wins). -/
def findInNode (tid : String) : OutlineNode → Option OutlineNode
  | ⟨_, _, _, c⟩ => findNode tid c

/-- The Node Address Resolver: locate the (first, in depth-first
preorder) node with the given id in a forest. -/
def findNode (tid : String) : List OutlineNode → Option OutlineNode
  | [] => none
  | n :: ns =>
      if n.id = tid then some n
      else
        match findInNode tid n with
        | some m => some m
        | none => findNode tid ns

end

mutual

/-- Structural equality of outline nodes: same id, title, level and
(recursively, in order) the same children. -/
def eqNodeB : OutlineNode → OutlineNode → Bool
  | ⟨i, t, l, c⟩, ⟨i2, t2, l2, c2⟩ => i == i2 && t == t2 && (l == l2) && eqForestB c c2

/-- Structural equality of forests: same length and pairwise structurally
equal nodes, in order. -/
def eqForestB : List OutlineNode → List OutlineNode → Bool
  | [], [] => true
  | n :: ns, m :: ms => eqNodeB n m && eqForestB ns ms
  | _, _ => false

end

/-- One mutation operation of the Outline Tree Store, with the id minted
by `Math.random` made explicit as `newId` where the source mints one. -/
inductive Op where
  | rename (id newTitle : String)
  | insertChild (parentId newId : String)
  | insertSibling (anchorId newId : String)
  | deleteSubtree (id : String)
  | appendTopLevel (newId : String)
  deriving Repr

/-- Apply one operation to a forest. -/
def applyOp : Op → List OutlineNode → List OutlineNode
  | .rename i t, f => updateRecursive i t f
  | .insertChild p nid, f => addRecursive p nid f
  | .insertSibling a nid, f => addSiblingRecursive a nid f
  | .deleteSubtree i, f => deleteRecursive i f
  | .appendTopLevel nid, f => appendTopLevel nid f

/-- Apply a sequence of operations, left to right. -/
def applyOps : List Op → List OutlineNode → List OutlineNode
  | [], f => f
  | op :: ops, f => applyOps ops (applyOp op f)

/-- The id an operation mints (`Math.random` draw), if any. -/
def mintedId : Op → Option String
  | .rename _ _ => none
  | .deleteSubtree _ => none
  | .insertChild _ nid => some nid
  | .insertSibling _ nid => some nid
  | .appendTopLevel nid => some nid

/-- Freshness of the minted ids along a sequence of operations: each
minted id differs from every id present in the forest at the moment its
operation runs. -/
def freshMints : List Op → List OutlineNode → Bool
  | [], _ => true
  | op :: ops, f =>
      (match mintedId op with
       | some nid => !((idsF f).contains nid)
       | none => true)
      && freshMints ops (applyOp op f)

/-- Whether an operation is one of the three insertions. -/
def isInsertOp : Op → Bool
  | .insertChild _ _ => true
  | .insertSibling _ _ => true
  | .appendTopLevel _ => true
  | _ => false

/-- Specification relation for rename, following spec §4.2: somewhere in
the forest, a node whose id is `tid` has exactly its title replaced by
`newTitle` — its id, level and children kept — and every other node, and
all sibling order, is unchanged. -/
inductive Renamed (tid newTitle : String) : List OutlineNode → List OutlineNode → Prop where
  | here (l1 : List OutlineNode) (n : OutlineNode) (l2 : List OutlineNode)
      (h : n.id = tid) :
      Renamed tid newTitle (l1 ++ n :: l2)
        (l1 ++ ⟨n.id, newTitle, n.level, n.children⟩ :: l2)
  | deeper (l1 : List OutlineNode) (n : OutlineNode) (c2 l2 : List OutlineNode)
      (h : Renamed tid newTitle n.children c2) :
      Renamed tid newTitle (l1 ++ n :: l2)
        (l1 ++ ⟨n.id, n.title, n.level, c2⟩ :: l2)

/-- Specification relation for insertChild, following spec §4.2: somewhere
in the forest, the node whose id is `pid` gets exactly one new node —
fresh id `nid`, default title, level `parent.level + 1`, no children —
appended at the end of its children, and everything else is unchanged. -/
inductive ChildAppended (pid nid : String) : List OutlineNode → List OutlineNode → Prop where
  | here (l1 : List OutlineNode) (n : OutlineNode) (l2 : List OutlineNode)
      (h : n.id = pid) :
      ChildAppended pid nid (l1 ++ n :: l2)
        (l1 ++ ⟨n.id, n.title, n.level,
          n.children ++ [⟨nid, defaultTitle, n.level + 1, []⟩]⟩ :: l2)
  | deeper (l1 : List OutlineNode) (n : OutlineNode) (c2 l2 : List OutlineNode)
      (h : ChildAppended pid nid n.children c2) :
      ChildAppended pid nid (l1 ++ n :: l2)
        (l1 ++ ⟨n.id, n.title, n.level, c2⟩ :: l2)

/-- Specification relation for insertSibling, following spec §4.2:
somewhere in the forest, the sibling list directly containing the node
whose id is `aid` gets exactly one new node — fresh id `nid`, default
title, the anchor's level, no children — inserted immediately after the
anchor, and everything else is unchanged. -/
inductive SiblingSpliced (aid nid : String) : List OutlineNode → List OutlineNode → Prop where
  | here (l1 : List OutlineNode) (n : OutlineNode) (l2 : List OutlineNode)
      (h : n.id = aid) :
      SiblingSpliced aid nid (l1 ++ n :: l2)
        (l1 ++ n :: ⟨nid, defaultTitle, n.level, []⟩ :: l2)
  | deeper (l1 : List OutlineNode) (n : OutlineNode) (c2 l2 : List OutlineNode)
      (h : SiblingSpliced aid nid n.children c2) :
      SiblingSpliced aid nid (l1 ++ n :: l2)
        (l1 ++ ⟨n.id, n.title, n.level, c2⟩ :: l2)

/-- Specification relation for deleteSubtree, following spec §4.2:
somewhere in the forest, the node whose id is `tid` is removed together
with its entire subtree, and every other node, and all sibling order, is
unchanged. -/
inductive SubtreeRemoved (tid : String) : List OutlineNode → List OutlineNode → Prop where
  | here (l1 : List OutlineNode) (n : OutlineNode) (l2 : List OutlineNode)
      (h : n.id = tid) :
      SubtreeRemoved tid (l1 ++ n :: l2) (l1 ++ l2)
  | deeper (l1 : List OutlineNode) (n : OutlineNode) (c2 l2 : List OutlineNode)
      (h : SubtreeRemoved tid n.children c2) :
      SubtreeRemoved tid (l1 ++ n :: l2)
        (l1 ++ ⟨n.id, n.title, n.level, c2⟩ :: l2)


/-- A sample forest with unique ids and consistent levels, used to
instantiate the claim theorems: two top-level sections, one of which has a
child that itself has a child. -/
def exampleForest : List OutlineNode :=
  [⟨"a", "ta", 1, [⟨"b", "tb", 2, [⟨"d", "td", 3, []⟩]⟩, ⟨"c", "tc", 2, []⟩]⟩,
   ⟨"e", "te", 1, []⟩]


/-- Forest-induction principle: to prove `P` of every forest it suffices
to prove it of `[]` and of `n :: ns` given it for `n`'s children and for
`ns`. -/
theorem forest_ind (P : List OutlineNode → Prop) (nil : P [])
    (cons : ∀ (i t : String) (l : Nat) (c ns : List OutlineNode),
      P c → P ns → P (⟨i, t, l, c⟩ :: ns)) :
    ∀ f, P f
  | [] => nil
  | ⟨i, t, l, c⟩ :: ns =>
      cons i t l c ns (forest_ind P nil cons c) (forest_ind P nil cons ns)

theorem idsN_eq (n : OutlineNode) : idsN n = n.id :: idsF n.children := by
  cases n; rfl

theorem levelsOkN_eq (k : Nat) (n : OutlineNode) :
    levelsOkN k n = ((n.level == k) && levelsOkF (k + 1) n.children) := by
  cases n; rfl

theorem idsF_append (l1 l2 : List OutlineNode) :
    idsF (l1 ++ l2) = idsF l1 ++ idsF l2 := by
  induction l1 with
  | nil => rfl
  | cons n ns ih => simp [idsF, ih]

theorem levelsOkF_append (k : Nat) (l1 l2 : List OutlineNode) :
    levelsOkF k (l1 ++ l2) = (levelsOkF k l1 && levelsOkF k l2) := by
  induction l1 with
  | nil => simp [levelsOkF]
  | cons n ns ih => simp [levelsOkF, ih, Bool.and_assoc]

theorem id_mem_idsF_of_mem {m : OutlineNode} {f : List OutlineNode} (h : m ∈ f) :
    m.id ∈ idsF f := by
  induction f with
  | nil => cases h
  | cons n ns ih =>
      rcases List.mem_cons.mp h with h | h
      · subst h; simp [idsF, idsN_eq]
      · simp [idsF, idsN_eq, ih h]

theorem updateRecursive_noop {tid : String} (s : String) {f : List OutlineNode}
    (h : tid ∉ idsF f) : updateRecursive tid s f = f := by
  induction f using forest_ind with
  | nil => rfl
  | cons i t l c ns ihc ihns =>
      simp only [idsF, idsN, List.cons_append, List.mem_cons, List.mem_append] at h
      push_neg at h
      obtain ⟨h1, h2, h3⟩ := h
      simp [updateRecursive, updateRecursiveNode, Ne.symm h1,
        ihc (fun hm => h2 hm), ihns (fun hm => h3 hm)]

theorem addRecursive_noop {pid : String} (nid : String) {f : List OutlineNode}
    (h : pid ∉ idsF f) : addRecursive pid nid f = f := by
  induction f using forest_ind with
  | nil => rfl
  | cons i t l c ns ihc ihns =>
      simp only [idsF, idsN, List.cons_append, List.mem_cons, List.mem_append] at h
      push_neg at h
      obtain ⟨h1, h2, h3⟩ := h
      simp [addRecursive, addRecursiveNode, Ne.symm h1,
        ihc (fun hm => h2 hm), ihns (fun hm => h3 hm)]

theorem deleteRecursive_noop {tid : String} {f : List OutlineNode}
    (h : tid ∉ idsF f) : deleteRecursive tid f = f := by
  induction f using forest_ind with
  | nil => rfl
  | cons i t l c ns ihc ihns =>
      simp only [idsF, idsN, List.cons_append, List.mem_cons, List.mem_append] at h
      push_neg at h
      obtain ⟨h1, h2, h3⟩ := h
      simp [deleteRecursive, deleteRecursiveNode, Ne.symm h1,
        ihc (fun hm => h2 hm), ihns (fun hm => h3 hm)]

theorem any_id_eq_false {aid : String} {f : List OutlineNode}
    (h : aid ∉ idsF f) : f.any (fun m => m.id == aid) = false := by
  rw [List.any_eq_false]
  intro m hm
  simp only [beq_iff_eq]
  intro he
  exact h (he ▸ id_mem_idsF_of_mem hm)

theorem addSiblingRecursive_noop {aid : String} (nid : String) {f : List OutlineNode}
    (h : aid ∉ idsF f) : addSiblingRecursive aid nid f = f := by
  induction f using forest_ind with
  | nil => rfl
  | cons i t l c ns ihc ihns =>
      have hany := any_id_eq_false h
      simp only [idsF, idsN, List.cons_append, List.mem_cons, List.mem_append] at h
      push_neg at h
      obtain ⟨h1, h2, h3⟩ := h
      simp [addSiblingRecursive, addSiblingRecursiveNode, hany,
        ihc (fun hm => h2 hm), ihns (fun hm => h3 hm)]

theorem addSiblingRecursive_cons (aid nid : String) (n : OutlineNode)
    (ns : List OutlineNode) :
    addSiblingRecursive aid nid (n :: ns) =
      if (n :: ns).any (fun m => m.id == aid) then spliceAfter aid nid (n :: ns)
      else addSiblingRecursiveNode aid nid n :: addSiblingRecursive aid nid ns := rfl

theorem idsF_updateRecursive (tid s : String) (f : List OutlineNode) :
    idsF (updateRecursive tid s f) = idsF f := by
  induction f using forest_ind with
  | nil => rfl
  | cons i t l c ns ihc ihns =>
      by_cases h1 : i = tid
      · simp [updateRecursive, updateRecursiveNode, h1, idsF, idsN, ihns]
      · by_cases h2 : c.length > 0 <;>
          simp [updateRecursive, updateRecursiveNode, h1, h2, idsF, idsN, ihc, ihns]

theorem levelsOkF_updateRecursive (tid s : String) (f : List OutlineNode) :
    ∀ k, levelsOkF k (updateRecursive tid s f) = levelsOkF k f := by
  induction f using forest_ind with
  | nil => intro k; rfl
  | cons i t l c ns ihc ihns =>
      intro k
      by_cases h1 : i = tid
      · simp [updateRecursive, updateRecursiveNode, h1, levelsOkF, levelsOkN, ihns]
      · by_cases h2 : c.length > 0 <;>
          simp [updateRecursive, updateRecursiveNode, h1, h2, levelsOkF, levelsOkN,
            ihc, ihns]

theorem idsF_deleteRecursive_sublist (tid : String) (f : List OutlineNode) :
    List.Sublist (idsF (deleteRecursive tid f)) (idsF f) := by
  induction f using forest_ind with
  | nil => exact List.nil_sublist _
  | cons i t l c ns ihc ihns =>
      by_cases h1 : i = tid
      · simp only [deleteRecursive, h1, if_pos rfl, idsF, idsN]
        exact ihns.trans (List.sublist_append_right _ _)
      · simp only [deleteRecursive, if_neg h1, idsF, idsN, deleteRecursiveNode,
          List.cons_append]
        exact (ihc.append ihns).cons₂ i

theorem not_mem_idsF_deleteRecursive (tid : String) (f : List OutlineNode) :
    tid ∉ idsF (deleteRecursive tid f) := by
  induction f using forest_ind with
  | nil => simp [deleteRecursive, idsF]
  | cons i t l c ns ihc ihns =>
      by_cases h1 : i = tid
      · simpa [deleteRecursive, h1] using ihns
      · simp [deleteRecursive, h1, deleteRecursiveNode, idsF, idsN, ihc, ihns,
          Ne.symm h1]

theorem levelsOkF_deleteRecursive (tid : String) (f : List OutlineNode) :
    ∀ k, levelsOkF k f = true → levelsOkF k (deleteRecursive tid f) = true := by
  induction f using forest_ind with
  | nil => intro k h; exact h
  | cons i t l c ns ihc ihns =>
      intro k h
      simp only [levelsOkF, levelsOkN, Bool.and_eq_true, beq_iff_eq] at h
      obtain ⟨⟨hl, hc⟩, hns⟩ := h
      by_cases h1 : i = tid
      · simp only [deleteRecursive, if_pos h1]
        exact ihns k hns
      · simp [deleteRecursive, h1, deleteRecursiveNode, levelsOkF, levelsOkN,
          hl, ihc _ hc, ihns _ hns]

theorem levelsOkF_addRecursive (pid nid : String) (f : List OutlineNode) :
    ∀ k, levelsOkF k f = true → levelsOkF k (addRecursive pid nid f) = true := by
  induction f using forest_ind with
  | nil => intro k h; exact h
  | cons i t l c ns ihc ihns =>
      intro k h
      simp only [levelsOkF, levelsOkN, Bool.and_eq_true, beq_iff_eq] at h
      obtain ⟨⟨hl, hc⟩, hns⟩ := h
      subst hl
      by_cases h1 : i = pid
      · simp [addRecursive, addRecursiveNode, h1, levelsOkF, levelsOkN,
          levelsOkF_append, hc, ihns _ hns]
      · by_cases h2 : c.length > 0 <;>
          simp [addRecursive, addRecursiveNode, h1, h2, levelsOkF, levelsOkN,
            hc, ihc _ hc, ihns _ hns]

theorem levelsOkF_spliceAfter (aid nid : String) (f : List OutlineNode) (k : Nat)
    (h : levelsOkF k f = true) : levelsOkF k (spliceAfter aid nid f) = true := by
  induction f with
  | nil => exact h
  | cons n ns ih =>
      simp only [levelsOkF, levelsOkN_eq, Bool.and_eq_true, beq_iff_eq] at h
      obtain ⟨⟨hl, hc⟩, hns⟩ := h
      by_cases h1 : n.id = aid
      · simp [spliceAfter, h1, levelsOkF, levelsOkN_eq, hl, hc, hns]
      · simp [spliceAfter, h1, levelsOkF, levelsOkN_eq, hl, hc, hns, ih hns]

theorem levelsOkF_addSiblingRecursive (aid nid : String) (f : List OutlineNode) :
    ∀ k, levelsOkF k f = true → levelsOkF k (addSiblingRecursive aid nid f) = true := by
  induction f using forest_ind with
  | nil => intro k h; exact h
  | cons i t l c ns ihc ihns =>
      intro k h
      by_cases hany : (⟨i, t, l, c⟩ :: ns).any (fun m => m.id == aid) = true
      · rw [addSiblingRecursive_cons, if_pos hany]
        exact levelsOkF_spliceAfter aid nid _ k h
      · rw [addSiblingRecursive_cons, if_neg hany]
        simp only [levelsOkF, levelsOkN, Bool.and_eq_true, beq_iff_eq] at h
        obtain ⟨⟨hl, hc⟩, hns⟩ := h
        simp [addSiblingRecursiveNode, levelsOkF, levelsOkN, hl,
          ihc _ hc, ihns _ hns]

theorem levelsOkF_appendTopLevel (nid : String) (f : List OutlineNode)
    (h : levelsOkF 1 f = true) : levelsOkF 1 (appendTopLevel nid f) = true := by
  simp [appendTopLevel, levelsOkF_append, levelsOkF, levelsOkN, h]

theorem levelsOkF_applyOp (op : Op) (f : List OutlineNode)
    (h : levelsOkF 1 f = true) : levelsOkF 1 (applyOp op f) = true := by
  cases op with
  | rename i s => simpa [applyOp, levelsOkF_updateRecursive] using h
  | insertChild p nid => exact levelsOkF_addRecursive p nid f 1 h
  | insertSibling a nid => exact levelsOkF_addSiblingRecursive a nid f 1 h
  | deleteSubtree i => exact levelsOkF_deleteRecursive i f 1 h
  | appendTopLevel nid => exact levelsOkF_appendTopLevel nid f h

/-- Destructure uniqueness of ids over a cons cell: the head id is fresh
for the head's children and for the tail, both parts are duplicate-free,
and their id sets are disjoint. -/
theorem nodup_parts {i t : String} {l : Nat} {c ns : List OutlineNode}
    (h : (idsF (⟨i, t, l, c⟩ :: ns)).Nodup) :
    i ∉ idsF c ∧ i ∉ idsF ns ∧ (idsF c).Nodup ∧ (idsF ns).Nodup ∧
      ∀ x ∈ idsF c, x ∉ idsF ns := by
  have h2 : ((i :: idsF c) ++ idsF ns).Nodup := h
  rw [List.nodup_append] at h2
  obtain ⟨hcn, hns, hdisj⟩ := h2
  rw [List.nodup_cons] at hcn
  obtain ⟨hic, hc⟩ := hcn
  refine ⟨hic, ?_, hc, hns, ?_⟩
  · exact fun hmem => hdisj (List.mem_cons_self i (idsF c)) hmem
  · exact fun x hx hxns => hdisj (List.mem_cons_of_mem i hx) hxns

theorem renamedLift {tid s : String} (m : OutlineNode) {f f2 : List OutlineNode}
    (h : Renamed tid s f f2) : Renamed tid s (m :: f) (m :: f2) := by
  cases h with
  | here l1 n l2 hn => exact Renamed.here (m :: l1) n l2 hn
  | deeper l1 n c2 l2 hd => exact Renamed.deeper (m :: l1) n c2 l2 hd

theorem childAppendedLift {pid nid : String} (m : OutlineNode) {f f2 : List OutlineNode}
    (h : ChildAppended pid nid f f2) : ChildAppended pid nid (m :: f) (m :: f2) := by
  cases h with
  | here l1 n l2 hn => exact ChildAppended.here (m :: l1) n l2 hn
  | deeper l1 n c2 l2 hd => exact ChildAppended.deeper (m :: l1) n c2 l2 hd

theorem siblingSplicedLift {aid nid : String} (m : OutlineNode) {f f2 : List OutlineNode}
    (h : SiblingSpliced aid nid f f2) : SiblingSpliced aid nid (m :: f) (m :: f2) := by
  cases h with
  | here l1 n l2 hn => exact SiblingSpliced.here (m :: l1) n l2 hn
  | deeper l1 n c2 l2 hd => exact SiblingSpliced.deeper (m :: l1) n c2 l2 hd

theorem renamed_updateRecursive {tid : String} (s : String) {f : List OutlineNode}
    (hnd : (idsF f).Nodup) (hmem : tid ∈ idsF f) :
    Renamed tid s f (updateRecursive tid s f) := by
  induction f using forest_ind with
  | nil => simp [idsF] at hmem
  | cons i t l c ns ihc ihns =>
      obtain ⟨hic, hins, hc, hns, hdisj⟩ := nodup_parts hnd
      by_cases h1 : i = tid
      · have hnoop : updateRecursive tid s ns = ns :=
          updateRecursive_noop s (h1 ▸ hins)
        have heq : updateRecursive tid s (⟨i, t, l, c⟩ :: ns) = ⟨i, s, l, c⟩ :: ns := by
          simp [updateRecursive, updateRecursiveNode, h1, hnoop]
        rw [heq]
        exact Renamed.here [] ⟨i, t, l, c⟩ ns h1
      · have hmem2 : tid ∈ idsF c ∨ tid ∈ idsF ns := by
          have hmem3 : tid ∈ (i :: idsF c) ++ idsF ns := hmem
          rcases List.mem_append.mp hmem3 with hx | hx
          · rcases List.mem_cons.mp hx with hx | hx
            · exact absurd hx.symm h1
            · exact Or.inl hx
          · exact Or.inr hx
        rcases hmem2 with hx | hx
        · have hlen : c.length > 0 := by
            cases c with
            | nil => simp [idsF] at hx
            | cons a as => simp
          have hnoop : updateRecursive tid s ns = ns :=
            updateRecursive_noop s (hdisj tid hx)
          have heq : updateRecursive tid s (⟨i, t, l, c⟩ :: ns) =
              ⟨i, t, l, updateRecursive tid s c⟩ :: ns := by
            simp [updateRecursive, updateRecursiveNode, h1, hlen, hnoop]
          rw [heq]
          exact Renamed.deeper [] ⟨i, t, l, c⟩ (updateRecursive tid s c) ns (ihc hc hx)
        · have hnoopc : updateRecursive tid s c = c :=
            updateRecursive_noop s (fun hm => hdisj tid hm hx)
          have heq : updateRecursive tid s (⟨i, t, l, c⟩ :: ns) =
              ⟨i, t, l, c⟩ :: updateRecursive tid s ns := by
            by_cases h2 : c.length > 0 <;>
              simp [updateRecursive, updateRecursiveNode, h1, h2, hnoopc]
          rw [heq]
          exact renamedLift _ (ihns hns hx)

theorem childAppended_addRecursive {pid : String} (nid : String) {f : List OutlineNode}
    (hnd : (idsF f).Nodup) (hmem : pid ∈ idsF f) :
    ChildAppended pid nid f (addRecursive pid nid f) := by
  induction f using forest_ind with
  | nil => simp [idsF] at hmem
  | cons i t l c ns ihc ihns =>
      obtain ⟨hic, hins, hc, hns, hdisj⟩ := nodup_parts hnd
      by_cases h1 : i = pid
      · have hnoop : addRecursive pid nid ns = ns :=
          addRecursive_noop nid (h1 ▸ hins)
        have heq : addRecursive pid nid (⟨i, t, l, c⟩ :: ns) =
            ⟨i, t, l, c ++ [⟨nid, defaultTitle, l + 1, []⟩]⟩ :: ns := by
          simp [addRecursive, addRecursiveNode, h1, hnoop]
        rw [heq]
        exact ChildAppended.here [] ⟨i, t, l, c⟩ ns h1
      · have hmem2 : pid ∈ idsF c ∨ pid ∈ idsF ns := by
          have hmem3 : pid ∈ (i :: idsF c) ++ idsF ns := hmem
          rcases List.mem_append.mp hmem3 with hx | hx
          · rcases List.mem_cons.mp hx with hx | hx
            · exact absurd hx.symm h1
            · exact Or.inl hx
          · exact Or.inr hx
        rcases hmem2 with hx | hx
        · have hlen : c.length > 0 := by
            cases c with
            | nil => simp [idsF] at hx
            | cons a as => simp
          have hnoop : addRecursive pid nid ns = ns :=
            addRecursive_noop nid (hdisj pid hx)
          have heq : addRecursive pid nid (⟨i, t, l, c⟩ :: ns) =
              ⟨i, t, l, addRecursive pid nid c⟩ :: ns := by
            simp [addRecursive, addRecursiveNode, h1, hlen, hnoop]
          rw [heq]
          exact ChildAppended.deeper [] ⟨i, t, l, c⟩ (addRecursive pid nid c) ns (ihc hc hx)
        · have hnoopc : addRecursive pid nid c = c :=
            addRecursive_noop nid (fun hm => hdisj pid hm hx)
          have heq : addRecursive pid nid (⟨i, t, l, c⟩ :: ns) =
              ⟨i, t, l, c⟩ :: addRecursive pid nid ns := by
            by_cases h2 : c.length > 0 <;>
              simp [addRecursive, addRecursiveNode, h1, h2, hnoopc]
          rw [heq]
          exact childAppendedLift _ (ihns hns hx)

theorem siblingSpliced_spliceAfter {aid : String} (nid : String) {f : List OutlineNode}
    (hany : f.any (fun m => m.id == aid) = true) :
    SiblingSpliced aid nid f (spliceAfter aid nid f) := by
  induction f with
  | nil => simp at hany
  | cons n ns ih =>
      by_cases h1 : n.id = aid
      · have heq : spliceAfter aid nid (n :: ns) =
            n :: ⟨nid, defaultTitle, n.level, []⟩ :: ns := by
          simp [spliceAfter, h1]
        rw [heq]
        exact SiblingSpliced.here [] n ns h1
      · have hany2 : ns.any (fun m => m.id == aid) = true := by
          simp only [List.any_cons, Bool.or_eq_true] at hany
          rcases hany with hx | hx
          · exact absurd (by simpa using hx) h1
          · exact hx
        have heq : spliceAfter aid nid (n :: ns) = n :: spliceAfter aid nid ns := by
          simp [spliceAfter, h1]
        rw [heq]
        exact siblingSplicedLift n (ih hany2)

theorem siblingSpliced_addSiblingRecursive {aid : String} (nid : String)
    {f : List OutlineNode} (hnd : (idsF f).Nodup) (hmem : aid ∈ idsF f) :
    SiblingSpliced aid nid f (addSiblingRecursive aid nid f) := by
  induction f using forest_ind with
  | nil => simp [idsF] at hmem
  | cons i t l c ns ihc ihns =>
      obtain ⟨hic, hins, hc, hns, hdisj⟩ := nodup_parts hnd
      by_cases hany : (⟨i, t, l, c⟩ :: ns).any (fun m => m.id == aid) = true
      · rw [addSiblingRecursive_cons, if_pos hany]
        exact siblingSpliced_spliceAfter nid hany
      · rw [addSiblingRecursive_cons, if_neg hany]
        have h1 : i ≠ aid := by
          intro he
          exact hany (by simp [List.any_cons, he])
        have hmem2 : aid ∈ idsF c ∨ aid ∈ idsF ns := by
          have hmem3 : aid ∈ (i :: idsF c) ++ idsF ns := hmem
          rcases List.mem_append.mp hmem3 with hx | hx
          · rcases List.mem_cons.mp hx with hx | hx
            · exact absurd hx.symm h1
            · exact Or.inl hx
          · exact Or.inr hx
        rcases hmem2 with hx | hx
        · have hnoopns : addSiblingRecursive aid nid ns = ns :=
            addSiblingRecursive_noop nid (hdisj aid hx)
          have heq : addSiblingRecursiveNode aid nid ⟨i, t, l, c⟩ =
              ⟨i, t, l, addSiblingRecursive aid nid c⟩ := rfl
          rw [heq, hnoopns]
          exact SiblingSpliced.deeper [] ⟨i, t, l, c⟩ _ ns (ihc hc hx)
        · have hnoopc : addSiblingRecursive aid nid c = c :=
            addSiblingRecursive_noop nid (fun hm => hdisj aid hm hx)
          have heq : addSiblingRecursiveNode aid nid ⟨i, t, l, c⟩ = ⟨i, t, l, c⟩ := by
            simp [addSiblingRecursiveNode, hnoopc]
          rw [heq]
          exact siblingSplicedLift _ (ihns hns hx)

theorem renamed_ids_eq {tid s : String} {f f2 : List OutlineNode}
    (h : Renamed tid s f f2) : idsF f2 = idsF f := by
  induction h with
  | here l1 n l2 hn => simp [idsF_append, idsF, idsN_eq]
  | deeper l1 n c2 l2 hd ih => simp [idsF_append, idsF, idsN_eq, ih]

theorem perm_ids_insert_here (A C B : List String) (x nid : String) :
    (A ++ x :: (C ++ nid :: B)).Perm (nid :: (A ++ x :: (C ++ B))) := by
  have e1 : A ++ x :: (C ++ nid :: B) = (A ++ x :: C) ++ nid :: B := by simp
  have e2 : nid :: (A ++ x :: (C ++ B)) = nid :: ((A ++ x :: C) ++ B) := by simp
  rw [e1, e2]
  exact List.perm_middle

theorem perm_ids_insert_deeper {C2 C : List String} (A B : List String)
    (x nid : String) (ih : C2.Perm (nid :: C)) :
    (A ++ x :: (C2 ++ B)).Perm (nid :: (A ++ x :: (C ++ B))) := by
  have p1 : (A ++ x :: (C2 ++ B)).Perm (A ++ x :: ((nid :: C) ++ B)) :=
    List.Perm.append_left A (List.Perm.cons x (ih.append_right B))
  have e1 : A ++ x :: ((nid :: C) ++ B) = (A ++ [x]) ++ nid :: (C ++ B) := by simp
  have e2 : nid :: (A ++ x :: (C ++ B)) = nid :: ((A ++ [x]) ++ (C ++ B)) := by simp
  rw [e1] at p1
  rw [e2]
  exact p1.trans List.perm_middle

theorem childAppended_ids_perm {pid nid : String} {f f2 : List OutlineNode}
    (h : ChildAppended pid nid f f2) : (idsF f2).Perm (nid :: idsF f) := by
  induction h with
  | here l1 n l2 hn =>
      have e1 : idsF (l1 ++ ⟨n.id, n.title, n.level,
            n.children ++ [⟨nid, defaultTitle, n.level + 1, []⟩]⟩ :: l2)
          = idsF l1 ++ n.id :: (idsF n.children ++ nid :: idsF l2) := by
        simp [idsF_append, idsF, idsN_eq]
      have e2 : idsF (l1 ++ n :: l2)
          = idsF l1 ++ n.id :: (idsF n.children ++ idsF l2) := by
        simp [idsF_append, idsF, idsN_eq]
      rw [e1, e2]
      exact perm_ids_insert_here _ _ _ _ _
  | deeper l1 n c2 l2 hd ih =>
      have e1 : idsF (l1 ++ ⟨n.id, n.title, n.level, c2⟩ :: l2)
          = idsF l1 ++ n.id :: (idsF c2 ++ idsF l2) := by
        simp [idsF_append, idsF, idsN_eq]
      have e2 : idsF (l1 ++ n :: l2)
          = idsF l1 ++ n.id :: (idsF n.children ++ idsF l2) := by
        simp [idsF_append, idsF, idsN_eq]
      rw [e1, e2]
      exact perm_ids_insert_deeper _ _ _ _ ih

theorem siblingSpliced_ids_perm {aid nid : String} {f f2 : List OutlineNode}
    (h : SiblingSpliced aid nid f f2) : (idsF f2).Perm (nid :: idsF f) := by
  induction h with
  | here l1 n l2 hn =>
      have e1 : idsF (l1 ++ n :: ⟨nid, defaultTitle, n.level, []⟩ :: l2)
          = idsF l1 ++ n.id :: (idsF n.children ++ nid :: idsF l2) := by
        simp [idsF_append, idsF, idsN_eq]
      have e2 : idsF (l1 ++ n :: l2)
          = idsF l1 ++ n.id :: (idsF n.children ++ idsF l2) := by
        simp [idsF_append, idsF, idsN_eq]
      rw [e1, e2]
      exact perm_ids_insert_here _ _ _ _ _
  | deeper l1 n c2 l2 hd ih =>
      have e1 : idsF (l1 ++ ⟨n.id, n.title, n.level, c2⟩ :: l2)
          = idsF l1 ++ n.id :: (idsF c2 ++ idsF l2) := by
        simp [idsF_append, idsF, idsN_eq]
      have e2 : idsF (l1 ++ n :: l2)
          = idsF l1 ++ n.id :: (idsF n.children ++ idsF l2) := by
        simp [idsF_append, idsF, idsN_eq]
      rw [e1, e2]
      exact perm_ids_insert_deeper _ _ _ _ ih

theorem idsF_appendTopLevel (nid : String) (f : List OutlineNode) :
    idsF (appendTopLevel nid f) = idsF f ++ [nid] := by
  simp [appendTopLevel, idsF_append, idsF, idsN]

theorem nodup_applyOp (op : Op) {f : List OutlineNode} (hnd : (idsF f).Nodup)
    (hfresh : ∀ nid, mintedId op = some nid → nid ∉ idsF f) :
    (idsF (applyOp op f)).Nodup := by
  cases op with
  | rename i s =>
      show (idsF (updateRecursive i s f)).Nodup
      rw [idsF_updateRecursive]
      exact hnd
  | insertChild p nid =>
      show (idsF (addRecursive p nid f)).Nodup
      by_cases hp : p ∈ idsF f
      · have hperm := childAppended_ids_perm (childAppended_addRecursive nid hnd hp)
        exact hperm.nodup_iff.mpr (List.nodup_cons.mpr ⟨hfresh nid rfl, hnd⟩)
      · rw [addRecursive_noop nid hp]
        exact hnd
  | insertSibling a nid =>
      show (idsF (addSiblingRecursive a nid f)).Nodup
      by_cases ha : a ∈ idsF f
      · have hperm := siblingSpliced_ids_perm (siblingSpliced_addSiblingRecursive nid hnd ha)
        exact hperm.nodup_iff.mpr (List.nodup_cons.mpr ⟨hfresh nid rfl, hnd⟩)
      · rw [addSiblingRecursive_noop nid ha]
        exact hnd
  | deleteSubtree i =>
      show (idsF (deleteRecursive i f)).Nodup
      exact List.Nodup.sublist (idsF_deleteRecursive_sublist i f) hnd
  | appendTopLevel nid =>
      show (idsF (appendTopLevel nid f)).Nodup
      rw [idsF_appendTopLevel, List.nodup_append]
      refine ⟨hnd, List.nodup_singleton nid, ?_⟩
      intro x hx hx2
      rw [List.mem_singleton] at hx2
      exact hfresh nid rfl (hx2 ▸ hx)

theorem nodup_applyOps {ops : List Op} {f : List OutlineNode} (hnd : (idsF f).Nodup)
    (hfresh : freshMints ops f = true) : (idsF (applyOps ops f)).Nodup := by
  induction ops generalizing f with
  | nil => exact hnd
  | cons op ops ih =>
      simp only [freshMints, Bool.and_eq_true] at hfresh
      obtain ⟨h1, h2⟩ := hfresh
      refine ih (nodup_applyOp op hnd ?_) h2
      intro nid he
      rw [he] at h1
      simpa using h1

theorem levelsOkF_applyOps (ops : List Op) {f : List OutlineNode}
    (h : levelsOkF 1 f = true) : levelsOkF 1 (applyOps ops f) = true := by
  induction ops generalizing f with
  | nil => exact h
  | cons op ops ih => exact ih (levelsOkF_applyOp op f h)

theorem findNode_cons (tid i t : String) (l : Nat) (c ns : List OutlineNode) :
    findNode tid (⟨i, t, l, c⟩ :: ns) =
      if i = tid then some ⟨i, t, l, c⟩
      else
        match findNode tid c with
        | some m => some m
        | none => findNode tid ns := rfl

theorem findNode_id {tid : String} {f : List OutlineNode} {n : OutlineNode}
    (h : findNode tid f = some n) : n.id = tid := by
  induction f using forest_ind with
  | nil => simp [findNode] at h
  | cons i t l c ns ihc ihns =>
      rw [findNode_cons] at h
      by_cases h1 : i = tid
      · rw [if_pos h1] at h
        cases h
        exact h1
      · rw [if_neg h1] at h
        cases hfc : findNode tid c with
        | some m =>
            rw [hfc] at h
            cases h
            exact ihc hfc
        | none =>
            rw [hfc] at h
            exact ihns h

theorem findNode_subtree_ids {tid : String} {f : List OutlineNode} {n : OutlineNode}
    (h : findNode tid f = some n) : ∀ x ∈ idsN n, x ∈ idsF f := by
  induction f using forest_ind with
  | nil => simp [findNode] at h
  | cons i t l c ns ihc ihns =>
      intro x hx
      have hsplit : x = i ∨ x ∈ idsF c ∨ x ∈ idsF ns → x ∈ idsF (⟨i, t, l, c⟩ :: ns) := by
        intro hc
        show x ∈ (i :: idsF c) ++ idsF ns
        rcases hc with hc | hc | hc
        · exact List.mem_append_left _ (hc ▸ List.mem_cons_self i _)
        · exact List.mem_append_left _ (List.mem_cons_of_mem i hc)
        · exact List.mem_append_right _ hc
      rw [findNode_cons] at h
      by_cases h1 : i = tid
      · rw [if_pos h1] at h
        cases h
        apply hsplit
        rcases List.mem_cons.mp (show x ∈ i :: idsF c from hx) with hx | hx
        · exact Or.inl hx
        · exact Or.inr (Or.inl hx)
      · rw [if_neg h1] at h
        cases hfc : findNode tid c with
        | some m =>
            rw [hfc] at h
            cases h
            exact hsplit (Or.inr (Or.inl (ihc hfc x hx)))
        | none =>
            rw [hfc] at h
            exact hsplit (Or.inr (Or.inr (ihns h x hx)))

theorem delete_removes_subtree {tid : String} {f : List OutlineNode} {n : OutlineNode}
    (hnd : (idsF f).Nodup) (hf : findNode tid f = some n) :
    ∀ x ∈ idsN n, x ∉ idsF (deleteRecursive tid f) := by
  induction f using forest_ind with
  | nil => simp [findNode] at hf
  | cons i t l c ns ihc ihns =>
      obtain ⟨hic, hins, hc, hns, hdisj⟩ := nodup_parts hnd
      intro x hx
      rw [findNode_cons] at hf
      by_cases h1 : i = tid
      · rw [if_pos h1] at hf
        cases hf
        have hdel : deleteRecursive tid (⟨i, t, l, c⟩ :: ns) = deleteRecursive tid ns := by
          simp [deleteRecursive, h1]
        rw [hdel]
        have hsub := idsF_deleteRecursive_sublist tid ns
        intro hmem
        have hxns : x ∈ idsF ns := hsub.mem hmem
        rcases List.mem_cons.mp (show x ∈ i :: idsF c from hx) with hx2 | hx2
        · exact hins (hx2 ▸ hxns)
        · exact hdisj x hx2 hxns
      · rw [if_neg h1] at hf
        have hdel : deleteRecursive tid (⟨i, t, l, c⟩ :: ns) =
            ⟨i, t, l, deleteRecursive tid c⟩ :: deleteRecursive tid ns := by
          simp [deleteRecursive, deleteRecursiveNode, h1]
        rw [hdel]
        cases hfc : findNode tid c with
        | some m =>
            rw [hfc] at hf
            cases hf
            have hxc : x ∈ idsF c := findNode_subtree_ids hfc x hx
            intro hmem
            rcases List.mem_append.mp (show x ∈ (i :: idsF (deleteRecursive tid c)) ++
                idsF (deleteRecursive tid ns) from hmem) with hm | hm
            · rcases List.mem_cons.mp hm with hm | hm
              · exact hic (hm ▸ hxc)
              · exact ihc hc hfc x hx hm
            · exact hdisj x hxc ((idsF_deleteRecursive_sublist tid ns).mem hm)
        | none =>
            rw [hfc] at hf
            have hxns : x ∈ idsF ns := findNode_subtree_ids hf x hx
            intro hmem
            rcases List.mem_append.mp (show x ∈ (i :: idsF (deleteRecursive tid c)) ++
                idsF (deleteRecursive tid ns) from hmem) with hm | hm
            · rcases List.mem_cons.mp hm with hm | hm
              · exact hins (hm ▸ hxns)
              · exact hdisj x ((idsF_deleteRecursive_sublist tid c).mem hm) hxns
            · exact ihns hns hf x hx hm

theorem self_mem_idsN (n : OutlineNode) : n.id ∈ idsN n := by
  rw [idsN_eq]
  exact List.mem_cons_self _ _

theorem delete_keeps_others {tid : String} {f : List OutlineNode} {n : OutlineNode}
    (hnd : (idsF f).Nodup) (hf : findNode tid f = some n) :
    ∀ x ∈ idsF f, x ∉ idsN n → x ∈ idsF (deleteRecursive tid f) := by
  induction f using forest_ind with
  | nil => simp [findNode] at hf
  | cons i t l c ns ihc ihns =>
      obtain ⟨hic, hins, hc, hns, hdisj⟩ := nodup_parts hnd
      intro x hx hnot
      rw [findNode_cons] at hf
      by_cases h1 : i = tid
      · rw [if_pos h1] at hf
        cases hf
        have hdel : deleteRecursive tid (⟨i, t, l, c⟩ :: ns) = deleteRecursive tid ns := by
          simp [deleteRecursive, h1]
        rw [hdel, deleteRecursive_noop (h1 ▸ hins)]
        rcases List.mem_append.mp (show x ∈ (i :: idsF c) ++ idsF ns from hx) with hm | hm
        · exact absurd hm hnot
        · exact hm
      · rw [if_neg h1] at hf
        have hdel : deleteRecursive tid (⟨i, t, l, c⟩ :: ns) =
            ⟨i, t, l, deleteRecursive tid c⟩ :: deleteRecursive tid ns := by
          simp [deleteRecursive, deleteRecursiveNode, h1]
        rw [hdel]
        show x ∈ (i :: idsF (deleteRecursive tid c)) ++ idsF (deleteRecursive tid ns)
        cases hfc : findNode tid c with
        | some m =>
            rw [hfc] at hf
            cases hf
            have htidc : tid ∈ idsF c :=
              findNode_id hfc ▸ findNode_subtree_ids hfc _ (self_mem_idsN n)
            have hnoopns : deleteRecursive tid ns = ns :=
              deleteRecursive_noop (hdisj tid htidc)
            rcases List.mem_append.mp (show x ∈ (i :: idsF c) ++ idsF ns from hx) with hm | hm
            · rcases List.mem_cons.mp hm with hm | hm
              · exact List.mem_append_left _ (hm ▸ List.mem_cons_self _ _)
              · exact List.mem_append_left _
                  (List.mem_cons_of_mem i (ihc hc hfc x hm hnot))
            · rw [hnoopns]
              exact List.mem_append_right _ hm
        | none =>
            rw [hfc] at hf
            have htidns : tid ∈ idsF ns :=
              findNode_id hf ▸ findNode_subtree_ids hf _ (self_mem_idsN n)
            have hnoopc : deleteRecursive tid c = c :=
              deleteRecursive_noop (fun hm => hdisj tid hm htidns)
            rcases List.mem_append.mp (show x ∈ (i :: idsF c) ++ idsF ns from hx) with hm | hm
            · rw [hnoopc]
              exact List.mem_append_left _ hm
            · exact List.mem_append_right _ (ihns hns hf x hm hnot)

theorem eqForestB_eq (f : List OutlineNode) : ∀ g, eqForestB f g = true → f = g := by
  induction f using forest_ind with
  | nil =>
      intro g h
      cases g with
      | nil => rfl
      | cons m ms => simp [eqForestB] at h
  | cons i t l c ns ihc ihns =>
      intro g h
      cases g with
      | nil => simp [eqForestB] at h
      | cons m ms =>
          obtain ⟨i2, t2, l2, c2⟩ := m
          simp only [eqForestB, eqNodeB, Bool.and_eq_true, beq_iff_eq] at h
          obtain ⟨⟨⟨⟨hi, ht⟩, hl⟩, hcc⟩, hms⟩ := h
          subst hi
          subst ht
          subst hl
          rw [ihc c2 hcc, ihns ms hms]

theorem eqForestB_refl (f : List OutlineNode) : eqForestB f f = true := by
  induction f using forest_ind with
  | nil => rfl
  | cons i t l c ns ihc ihns => simp [eqForestB, eqNodeB, ihc, ihns]

/-- C1, as stated, is false: the claim promises that every newly minted
node's id differs from every id already present, but the source draws ids
from `Math.random` with no check against the forest, so a colliding draw
(here: appending a top-level node whose drawn id is `"a"` to a valid
forest already containing id `"a"`) yields a forest with a duplicate
id. -/
theorem claim1_uniqueness_cex :
    (idsF [⟨"a", "t", 1, ([] : List OutlineNode)⟩]).Nodup ∧
    isInsertOp (Op.appendTopLevel "a") = true ∧
    ¬ (idsF (applyOps [Op.appendTopLevel "a"] [⟨"a", "t", 1, []⟩])).Nodup :=
  ⟨by decide, rfl, by decide⟩

/-- C1 (amended): for every forest with unique ids and every sequence of
operations in which each minted id is fresh — distinct from every id in
the forest at the moment its operation runs — every id in the resulting
forest is unique. -/
theorem claim1_unique_ids_preserved (ops : List Op) (f : List OutlineNode)
    (hnd : (idsF f).Nodup) (hfresh : freshMints ops f = true) :
    (idsF (applyOps ops f)).Nodup :=
  nodup_applyOps hnd hfresh

/-- C1 witness: a concrete run of the three insertions with fresh minted
ids, starting from a valid one-node forest. -/
theorem claim1_unique_ids_preserved_witness :
    (idsF [⟨"a", "t", 1, ([] : List OutlineNode)⟩]).Nodup ∧
    freshMints [Op.insertChild "a" "n1", Op.insertSibling "n1" "n2",
      Op.appendTopLevel "n3"] [⟨"a", "t", 1, []⟩] = true ∧
    (idsF (applyOps [Op.insertChild "a" "n1", Op.insertSibling "n1" "n2",
      Op.appendTopLevel "n3"] [⟨"a", "t", 1, []⟩])).Nodup :=
  ⟨by decide, by decide,
    claim1_unique_ids_preserved _ _ (by decide) (by decide)⟩

/-- C2: every forest satisfying the level invariant (each node's level is
1 plus its parent's level, 1 at the forest root) still satisfies it after
any sequence of rename / insertChild / insertSibling / deleteSubtree /
appendTopLevel operations. -/
theorem claim2_level_invariant_preserved (ops : List Op) (f : List OutlineNode)
    (h : levelsOkF 1 f = true) : levelsOkF 1 (applyOps ops f) = true :=
  levelsOkF_applyOps ops h

/-- C2 witness: a concrete run using all five operation kinds on the
sample forest. -/
theorem claim2_level_invariant_preserved_witness :
    levelsOkF 1 exampleForest = true ∧
    levelsOkF 1 (applyOps [Op.rename "b" "x", Op.insertChild "b" "n1",
      Op.insertSibling "c" "n2", Op.deleteSubtree "d", Op.appendTopLevel "n3"]
      exampleForest) = true :=
  ⟨rfl, claim2_level_invariant_preserved _ _ rfl⟩

/-- C3: applying rename, insertChild, insertSibling or deleteSubtree with
an id that occurs nowhere in the forest returns the forest unchanged
(literally equal: same ids, titles, levels, nesting and sibling
order). -/
theorem claim3_missing_id_noop (tid s nid : String) (f : List OutlineNode)
    (h : tid ∉ idsF f) :
    updateRecursive tid s f = f ∧ addRecursive tid nid f = f ∧
    addSiblingRecursive tid nid f = f ∧ deleteRecursive tid f = f :=
  ⟨updateRecursive_noop s h, addRecursive_noop nid h,
   addSiblingRecursive_noop nid h, deleteRecursive_noop h⟩

/-- C3 witness: the id `"x"` is absent from the sample forest and all four
operations leave it unchanged. -/
theorem claim3_missing_id_noop_witness :
    ("x" ∉ idsF exampleForest) ∧
    (updateRecursive "x" "s" exampleForest = exampleForest ∧
     addRecursive "x" "n1" exampleForest = exampleForest ∧
     addSiblingRecursive "x" "n1" exampleForest = exampleForest ∧
     deleteRecursive "x" exampleForest = exampleForest) :=
  ⟨by decide, claim3_missing_id_noop "x" "s" "n1" exampleForest (by decide)⟩

theorem subtreeRemovedLift {tid : String} (m : OutlineNode) {f f2 : List OutlineNode}
    (h : SubtreeRemoved tid f f2) : SubtreeRemoved tid (m :: f) (m :: f2) := by
  cases h with
  | here l1 n l2 hn => exact SubtreeRemoved.here (m :: l1) n l2 hn
  | deeper l1 n c2 l2 hd => exact SubtreeRemoved.deeper (m :: l1) n c2 l2 hd

theorem subtreeRemoved_deleteRecursive {tid : String} {f : List OutlineNode}
    (hnd : (idsF f).Nodup) (hmem : tid ∈ idsF f) :
    SubtreeRemoved tid f (deleteRecursive tid f) := by
  induction f using forest_ind with
  | nil => simp [idsF] at hmem
  | cons i t l c ns ihc ihns =>
      obtain ⟨hic, hins, hc, hns, hdisj⟩ := nodup_parts hnd
      by_cases h1 : i = tid
      · have heq : deleteRecursive tid (⟨i, t, l, c⟩ :: ns) = ns := by
          simp [deleteRecursive, h1, deleteRecursive_noop (h1 ▸ hins)]
        rw [heq]
        exact SubtreeRemoved.here [] ⟨i, t, l, c⟩ ns h1
      · have hmem2 : tid ∈ idsF c ∨ tid ∈ idsF ns := by
          have hmem3 : tid ∈ (i :: idsF c) ++ idsF ns := hmem
          rcases List.mem_append.mp hmem3 with hx | hx
          · rcases List.mem_cons.mp hx with hx | hx
            · exact absurd hx.symm h1
            · exact Or.inl hx
          · exact Or.inr hx
        rcases hmem2 with hx | hx
        · have heq : deleteRecursive tid (⟨i, t, l, c⟩ :: ns) =
              ⟨i, t, l, deleteRecursive tid c⟩ :: ns := by
            simp [deleteRecursive, deleteRecursiveNode, h1,
              deleteRecursive_noop (hdisj tid hx)]
          rw [heq]
          exact SubtreeRemoved.deeper [] ⟨i, t, l, c⟩ (deleteRecursive tid c) ns
            (ihc hc hx)
        · have heq : deleteRecursive tid (⟨i, t, l, c⟩ :: ns) =
              ⟨i, t, l, c⟩ :: deleteRecursive tid ns := by
            simp [deleteRecursive, deleteRecursiveNode, h1,
              deleteRecursive_noop (fun hm => hdisj tid hm hx)]
          rw [heq]
          exact subtreeRemovedLift _ (ihns hns hx)

/-- C4: in a forest with unique ids, deleting the id of a present node
removes exactly that node together with its entire subtree, wherever it
appears: the result is the input with that one subtree removed and every
other node unchanged, and an id occurs in the result iff it occurred
before and is not an id of the deleted node's subtree. -/
theorem claim4_delete_cascades {tid : String} {f : List OutlineNode}
    {n : OutlineNode} (hnd : (idsF f).Nodup) (hf : findNode tid f = some n) :
    SubtreeRemoved tid f (deleteRecursive tid f) ∧
    ∀ x, x ∈ idsF (deleteRecursive tid f) ↔ (x ∈ idsF f ∧ x ∉ idsN n) := by
  constructor
  · exact subtreeRemoved_deleteRecursive hnd
      (findNode_id hf ▸ findNode_subtree_ids hf _ (self_mem_idsN n))
  intro x
  constructor
  · intro hx
    refine ⟨(idsF_deleteRecursive_sublist tid f).mem hx, ?_⟩
    intro hxn
    exact delete_removes_subtree hnd hf x hxn hx
  · intro hx
    exact delete_keeps_others hnd hf x hx.1 hx.2

/-- C4 witness: deleting the nested node `"b"` (which has descendant
`"d"`) from the sample forest, instantiated at the descendant id `"d"`
(removed) and the sibling id `"c"` (kept). -/
theorem claim4_delete_cascades_witness :
    (idsF exampleForest).Nodup ∧
    findNode "b" exampleForest = some ⟨"b", "tb", 2, [⟨"d", "td", 3, []⟩]⟩ ∧
    SubtreeRemoved "b" exampleForest (deleteRecursive "b" exampleForest) ∧
    (("d" ∈ idsF (deleteRecursive "b" exampleForest)) ↔
      ("d" ∈ idsF exampleForest ∧
       "d" ∉ idsN ⟨"b", "tb", 2, [⟨"d", "td", 3, []⟩]⟩)) ∧
    (("c" ∈ idsF (deleteRecursive "b" exampleForest)) ↔
      ("c" ∈ idsF exampleForest ∧
       "c" ∉ idsN ⟨"b", "tb", 2, [⟨"d", "td", 3, []⟩]⟩)) :=
  have hfind : findNode "b" exampleForest =
      some ⟨"b", "tb", 2, [⟨"d", "td", 3, []⟩]⟩ := rfl
  ⟨by decide, hfind, (claim4_delete_cascades (by decide) hfind).1,
    (claim4_delete_cascades (by decide) hfind).2 "d",
    (claim4_delete_cascades (by decide) hfind).2 "c"⟩

/-- C5: in a forest with unique ids containing a node with id `aid` (at
any depth, including the forest root), insertSibling inserts exactly one
new node — id `nid`, default title, the anchor's level, no children —
immediately after the anchor in the anchor's containing sibling list,
leaving everything else unchanged. -/
theorem claim5_insertSibling_after_anchor (aid nid : String)
    (f : List OutlineNode) (hnd : (idsF f).Nodup) (hmem : aid ∈ idsF f) :
    SiblingSpliced aid nid f (addSiblingRecursive aid nid f) :=
  siblingSpliced_addSiblingRecursive nid hnd hmem

/-- C5 witness: the spec's concrete example — inserting a sibling after
`"a"` in the two-node top-level forest yields a 3-element top-level list
with the new level-1 node at index 1. -/
theorem claim5_insertSibling_after_anchor_witness :
    (idsF [⟨"a", "t", 1, ([] : List OutlineNode)⟩, ⟨"b", "u", 1, []⟩]).Nodup ∧
    "a" ∈ idsF [⟨"a", "t", 1, ([] : List OutlineNode)⟩, ⟨"b", "u", 1, []⟩] ∧
    SiblingSpliced "a" "n1" [⟨"a", "t", 1, []⟩, ⟨"b", "u", 1, []⟩]
      (addSiblingRecursive "a" "n1" [⟨"a", "t", 1, []⟩, ⟨"b", "u", 1, []⟩]) ∧
    addSiblingRecursive "a" "n1" [⟨"a", "t", 1, []⟩, ⟨"b", "u", 1, []⟩] =
      [⟨"a", "t", 1, []⟩, ⟨"n1", defaultTitle, 1, []⟩, ⟨"b", "u", 1, []⟩] :=
  ⟨by decide, by decide,
    claim5_insertSibling_after_anchor "a" "n1" _ (by decide) (by decide), rfl⟩

/-- C6: in a forest with unique ids containing a node with id `pid`,
insertChild appends exactly one new node — id `nid`, default title, level
`parent.level + 1` (derived from the parent's current level), no children
— at the end of that parent's children, leaving the existing children and
everything else unchanged. -/
theorem claim6_insertChild_appends (pid nid : String) (f : List OutlineNode)
    (hnd : (idsF f).Nodup) (hmem : pid ∈ idsF f) :
    ChildAppended pid nid f (addRecursive pid nid f) :=
  childAppended_addRecursive nid hnd hmem

/-- C6 witness: the spec's concrete example — a parent with level 2 and
empty children gains exactly one child with level 3. -/
theorem claim6_insertChild_appends_witness :
    (idsF [⟨"p", "t", 2, ([] : List OutlineNode)⟩]).Nodup ∧
    "p" ∈ idsF [⟨"p", "t", 2, ([] : List OutlineNode)⟩] ∧
    ChildAppended "p" "n1" [⟨"p", "t", 2, []⟩]
      (addRecursive "p" "n1" [⟨"p", "t", 2, []⟩]) ∧
    addRecursive "p" "n1" [⟨"p", "t", 2, []⟩] =
      [⟨"p", "t", 2, [⟨"n1", defaultTitle, 3, []⟩]⟩] :=
  ⟨by decide, by decide,
    claim6_insertChild_appends "p" "n1" _ (by decide) (by decide), rfl⟩

/-- C7: in a forest with unique ids containing a node with id `tid`,
rename replaces exactly that node's title — keeping its id, level and
children — and leaves every other node and all sibling order
unchanged. -/
theorem claim7_rename_frame (tid s : String) (f : List OutlineNode)
    (hnd : (idsF f).Nodup) (hmem : tid ∈ idsF f) :
    Renamed tid s f (updateRecursive tid s f) :=
  renamed_updateRecursive s hnd hmem

/-- C7 witness: renaming the nested node `"b"` of the sample forest
changes only its title. -/
theorem claim7_rename_frame_witness :
    (idsF exampleForest).Nodup ∧
    "b" ∈ idsF exampleForest ∧
    Renamed "b" "z" exampleForest (updateRecursive "b" "z" exampleForest) ∧
    updateRecursive "b" "z" exampleForest =
      [⟨"a", "ta", 1, [⟨"b", "z", 2, [⟨"d", "td", 3, []⟩]⟩, ⟨"c", "tc", 2, []⟩]⟩,
       ⟨"e", "te", 1, []⟩] :=
  ⟨by decide, by decide, claim7_rename_frame "b" "z" _ (by decide) (by decide), rfl⟩

/-- C8: deleteSubtree is idempotent — applying it twice with the same id,
on any forest, equals applying it once. -/
theorem claim8_delete_idempotent (tid : String) (f : List OutlineNode) :
    deleteRecursive tid (deleteRecursive tid f) = deleteRecursive tid f :=
  deleteRecursive_noop (not_mem_idsF_deleteRecursive tid f)

/-- C9, as stated, is false: insertChild applied twice to the same forest
with the same `parentId` need not give structurally equal results,
because the new node's id is drawn from `Math.random` — hidden generator
state between calls — rather than being a function of the forest and the
declared arguments.  Here the same call with two different draws gives
structurally different forests. -/
theorem claim9_purity_cex :
    eqForestB [⟨"p", "t", 1, ([] : List OutlineNode)⟩] [⟨"p", "t", 1, []⟩] = true ∧
    eqForestB (addRecursive "p" "x" [⟨"p", "t", 1, []⟩])
      (addRecursive "p" "y" [⟨"p", "t", 1, []⟩]) = false :=
  ⟨rfl, rfl⟩

/-- C9 (amended): every operation is a pure, deterministic function of
the forest, its arguments, and the minted id (the `Math.random` draw made
explicit): applied to structurally equal forests with equal arguments and
equal minted ids it produces structurally equal results, with no other
hidden state. -/
theorem claim9_deterministic (op : Op) (f g : List OutlineNode)
    (h : eqForestB f g = true) :
    eqForestB (applyOp op f) (applyOp op g) = true := by
  rw [eqForestB_eq f g h]
  exact eqForestB_refl (applyOp op g)

/-- C9 witness: a concrete deterministic replay of insertChild on the
sample forest. -/
theorem claim9_deterministic_witness :
    eqForestB exampleForest exampleForest = true ∧
    eqForestB (applyOp (Op.insertChild "b" "n1") exampleForest)
      (applyOp (Op.insertChild "b" "n1") exampleForest) = true :=
  ⟨rfl, claim9_deterministic (Op.insertChild "b" "n1") exampleForest exampleForest rfl⟩

/-- C10: in a forest with unique ids, insertChild and insertSibling with a
present target id, and appendTopLevel always, add exactly one node: the
resulting id multiset is the old one plus the minted id (so no existing
node is removed or duplicated) and the node count grows by exactly
one. -/
theorem claim10_insert_adds_one (pid aid nid : String) (f : List OutlineNode)
    (hnd : (idsF f).Nodup) :
    (pid ∈ idsF f →
      (idsF (addRecursive pid nid f)).Perm (nid :: idsF f) ∧
      (idsF (addRecursive pid nid f)).length = (idsF f).length + 1) ∧
    (aid ∈ idsF f →
      (idsF (addSiblingRecursive aid nid f)).Perm (nid :: idsF f) ∧
      (idsF (addSiblingRecursive aid nid f)).length = (idsF f).length + 1) ∧
    ((idsF (appendTopLevel nid f)).Perm (nid :: idsF f) ∧
      (idsF (appendTopLevel nid f)).length = (idsF f).length + 1) := by
  refine ⟨?_, ?_, ?_⟩
  · intro hp
    have hperm := childAppended_ids_perm (childAppended_addRecursive nid hnd hp)
    exact ⟨hperm, by rw [hperm.length_eq]; rfl⟩
  · intro ha
    have hperm := siblingSpliced_ids_perm (siblingSpliced_addSiblingRecursive nid hnd ha)
    exact ⟨hperm, by rw [hperm.length_eq]; rfl⟩
  · have hperm : (idsF (appendTopLevel nid f)).Perm (nid :: idsF f) := by
      rw [idsF_appendTopLevel]
      exact List.perm_append_singleton nid (idsF f)
    exact ⟨hperm, by rw [hperm.length_eq]; rfl⟩

/-- C10 witness: the three insertions on the sample forest, with present
targets `"a"` (as parent) and `"b"` (as anchor). -/
theorem claim10_insert_adds_one_witness :
    (idsF exampleForest).Nodup ∧
    ((idsF (addRecursive "a" "n1" exampleForest)).Perm ("n1" :: idsF exampleForest) ∧
      (idsF (addRecursive "a" "n1" exampleForest)).length =
        (idsF exampleForest).length + 1) ∧
    ((idsF (addSiblingRecursive "b" "n1" exampleForest)).Perm
        ("n1" :: idsF exampleForest) ∧
      (idsF (addSiblingRecursive "b" "n1" exampleForest)).length =
        (idsF exampleForest).length + 1) ∧
    ((idsF (appendTopLevel "n1" exampleForest)).Perm ("n1" :: idsF exampleForest) ∧
      (idsF (appendTopLevel "n1" exampleForest)).length =
        (idsF exampleForest).length + 1) :=
  have h := claim10_insert_adds_one "a" "b" "n1" exampleForest (by decide)
  ⟨by decide, h.1 (by decide), h.2.1 (by decide), h.2.2⟩
